import Mathlib

/-!
Verification of the dot-to-dot task generator (`src/generator.py`).

The generator's point sampling, ordering strategies and frame/animation
construction are embedded as executable Lean definitions.  Randomness is
modelled by an abstract stream `rng : ℕ → ℕ` together with a cursor
position: `random.randint(a, b)` consumes one stream value and maps it
into `[a, b]` (raising, as CPython does, when the range is empty), so all
universally quantified theorems below hold for every possible sequence of
random draws.  Floating-point quantities (the `sqrt` distance comparisons,
the grid-fallback division, the animation progress fraction) are embedded
exactly over `ℚ`/`ℤ`: comparisons of `sqrt` values are stated on squared
distances, which is equivalent over the reals.
-/

namespace DotToDot

abbrev Pt := ℤ × ℤ

abbrev Color := ℤ × ℤ × ℤ

/-- Model of Python `random.randint(a, b)` (inclusive bounds): consume the
next value of the abstract stream `rng` and map it into `[a, b]`; raise
(`Except.error`) when the range is empty, as CPython does. -/
def randint (rng : ℕ → ℕ) (a b : ℤ) (pos : ℕ) : Except String (ℤ × ℕ) :=
  if a ≤ b then .ok (a + (rng pos : ℤ) % (b - a + 1), pos + 1)
  else .error "ValueError: empty range for randrange"

/-- Squared Euclidean distance between two integer points. -/
def dist2 (p q : Pt) : ℤ := (p.1 - q.1) ^ 2 + (p.2 - q.2) ^ 2

/-- The rejection test of `_generate_task_data`: candidate `(x, y)` is too
close when some already placed point lies at Euclidean distance
`< margin * 1.5`.  Stated on squared distances (`4·d² < 9·margin²`), which
is equivalent for the nonnegative margins the generator uses. -/
def tooClose (margin : ℤ) (cand : Pt) (points : List Pt) : Bool :=
  points.any fun q => 4 * dist2 cand q < 9 * margin ^ 2

/-- The inner `while attempts < 100` loop of `_generate_task_data`: draw up
to `fuel` candidate positions, returning the first acceptable one
(`some p`), or `none` when every draw was rejected. -/
def drawAttempts (rng : ℕ → ℕ) (margin width height : ℤ) (points : List Pt) :
    ℕ → ℕ → Except String (Option Pt × ℕ)
  | 0, pos => .ok (none, pos)
  | fuel + 1, pos => do
    let (x, pos1) ← randint rng margin (width - margin) pos
    let (y, pos2) ← randint rng margin (height - margin) pos1
    if tooClose margin (x, y) points then
      drawAttempts rng margin width height points fuel pos2
    else .ok (some (x, y), pos2)

/-- `int(math.ceil(math.sqrt(n)))` for a natural number `n`. -/
def ceilSqrt (n : ℕ) : ℕ :=
  if Nat.sqrt n * Nat.sqrt n = n then Nat.sqrt n else Nat.sqrt n + 1

/-- Python `int(...)` applied to an exact rational value: truncation toward
zero. -/
def pyTrunc (q : ℚ) : ℤ := if 0 ≤ q then ⌊q⌋ else ⌈q⌉

/-- Python `//` (floor division) on integers. -/
def pyFloorDiv (a b : ℤ) : ℤ := Int.fdiv a b

/-- The grid fallback of `_generate_task_data`: the deterministic position
for the point of ordinal index `idx` on a `ceil(sqrt(numDots))`-sided grid
spanning `[margin, dim - margin]`, centering on an axis when the grid side
is not greater than 1. -/
def gridPoint (numDots : ℕ) (margin width height : ℤ) (idx : ℕ) : Pt :=
  let gridSize := ceilSqrt numDots
  let row := idx / gridSize
  let col := idx % gridSize
  let x : ℚ :=
    if 1 < gridSize then
      (margin : ℚ) + ((width : ℚ) - 2 * margin) * col / ((gridSize - 1 : ℕ) : ℚ)
    else ((pyFloorDiv width 2 : ℤ) : ℚ)
  let y : ℚ :=
    if 1 < gridSize then
      (margin : ℚ) + ((height : ℚ) - 2 * margin) * row / ((gridSize - 1 : ℕ) : ℚ)
    else ((pyFloorDiv height 2 : ℤ) : ℚ)
  (pyTrunc x, pyTrunc y)

/-- One iteration of the point-generation loop: up to 100 random draws, then
the grid fallback keyed by the number of already placed points. -/
def sampleOnePoint (rng : ℕ → ℕ) (numDots : ℕ) (margin width height : ℤ)
    (points : List Pt) (pos : ℕ) : Except String (Pt × ℕ) := do
  let (r, pos') ← drawAttempts rng margin width height points 100 pos
  match r with
  | some p => pure (p, pos')
  | none => pure (gridPoint numDots margin width height points.length, pos')

/-- The `for _ in range(num_dots)` loop of `_generate_task_data`. -/
def samplePointsAux (rng : ℕ → ℕ) (numDots : ℕ) (margin width height : ℤ) :
    ℕ → List Pt → ℕ → Except String (List Pt × ℕ)
  | 0, points, pos => .ok (points, pos)
  | k + 1, points, pos => do
    let (p, pos') ← sampleOnePoint rng numDots margin width height points pos
    samplePointsAux rng numDots margin width height k (points ++ [p]) pos'

/-- Point generation of `_generate_task_data`: margin
`max(dot_radius * 3, 40)`, then `num_dots` sampled points. -/
def generateTaskPoints (rng : ℕ → ℕ) (numDots : ℕ) (dotRadius width height : ℤ)
    (pos : ℕ) : Except String (List Pt × ℕ) :=
  samplePointsAux rng numDots (max (dotRadius * 3) 40) width height numDots [] pos

/-- One pass of the `for i in range(num_dots)` scan in `_find_path_order`,
tracking the current best `(index, squared distance)` pair; `none` plays
the role of `min_dist = inf`, `next_idx = None`.  The source compares
`sqrt` distances with strict `<`; squared distances compare identically. -/
def scanNearestAux (points : List Pt) (visited : List ℕ) (cur : Pt) :
    List ℕ → Option (ℕ × ℤ) → Option (ℕ × ℤ)
  | [], best => best
  | i :: rest, best =>
    if i ∈ visited then scanNearestAux points visited cur rest best
    else
      let d := dist2 (points.getD i (0, 0)) cur
      match best with
      | none => scanNearestAux points visited cur rest (some (i, d))
      | some (j, dj) =>
        if d < dj then scanNearestAux points visited cur rest (some (i, d))
        else scanNearestAux points visited cur rest (some (j, dj))

/-- The full scan of `_find_path_order` over all indices. -/
def scanNearest (points : List Pt) (visited : List ℕ) (curIdx : ℕ) : Option ℕ :=
  (scanNearestAux points visited (points.getD curIdx (0, 0))
    (List.range points.length) none).map (·.1)

/-- The greedy `while len(visited) < num_dots` loop of `_find_path_order`;
`fuel` counts the points still to be appended. -/
def pathLoop (points : List Pt) : ℕ → List ℕ → ℕ → List ℕ
  | 0, order, _ => order
  | fuel + 1, order, curIdx =>
    match scanNearest points order curIdx with
    | none => order
    | some nxt => pathLoop points fuel (order ++ [nxt]) nxt

/-- `_find_path_order`: nearest-neighbour path from a random start index. -/
def findPathOrder (rng : ℕ → ℕ) (points : List Pt) (pos : ℕ) :
    Except String (List ℕ × ℕ) :=
  let numDots := points.length
  if numDots ≤ 1 then .ok (List.range numDots, pos)
  else do
    let (s, pos') ← randint rng 0 ((numDots : ℤ) - 1) pos
    .ok (pathLoop points (numDots - 1) [s.toNat] s.toNat, pos')

/-- Python's parallel assignment `x[i], x[j] = x[j], x[i]` on a list. -/
def swapL (l : List ℕ) (i j : ℕ) : List ℕ :=
  match l.get? i, l.get? j with
  | some a, some b => (l.set i b).set j a
  | _, _ => l

/-- The Fisher–Yates loop of `random.shuffle`: for each index `i` of the
given (descending) index list, swap position `i` with a drawn `j ≤ i`. -/
def shuffleAux (rng : ℕ → ℕ) : List ℕ → List ℕ → ℕ → List ℕ × ℕ
  | [], l, pos => (l, pos)
  | i :: rest, l, pos =>
    shuffleAux rng rest (swapL l i (rng pos % (i + 1))) (pos + 1)

/-- `random.shuffle(x)`: Fisher–Yates over `i = len-1, …, 1`. -/
def shuffle (rng : ℕ → ℕ) (l : List ℕ) (pos : ℕ) : List ℕ × ℕ :=
  shuffleAux rng (List.range' 1 (l.length - 1)).reverse l pos

/-- `_determine_connection_order`: dispatch on `connection_type`, with the
final `else` falling back to the sequential order. -/
def determineConnectionOrder (rng : ℕ → ℕ) (connectionType : String)
    (points : List Pt) (pos : ℕ) : Except String (List ℕ × ℕ) :=
  if connectionType = "sequential" then .ok (List.range points.length, pos)
  else if connectionType = "path" then findPathOrder rng points pos
  else if connectionType = "random" then
    .ok (shuffle rng (List.range points.length) pos)
  else .ok (List.range points.length, pos)

/-- Abstract font resource: for a label string, the
`draw.textbbox((0, 0), text, font)` rectangle `(x0, y0, x1, y1)`.  One
deterministic font is used for a whole run, so frames rendered with the
same font from the same data are pixel-identical. -/
abbrev Font := String → ℤ × ℤ × ℤ × ℤ

/-- The configuration values consumed by the rendering code. -/
structure Config where
  imageWidth : ℤ
  imageHeight : ℤ
  dotRadius : ℤ
  lineWidth : ℤ
  showNumbers : Bool
  dotColor : Color
  lineColor : Color
  backgroundColor : Color
deriving DecidableEq

/-- One PIL draw call, recorded symbolically.  Line endpoints are rational
because the partial-connection endpoint is computed in floating point. -/
inductive DrawOp where
  | lineSeg (x1 y1 x2 y2 : ℚ) (fill : Color) (width : ℤ)
  | ellipse (x0 y0 x1 y1 : ℤ) (fill : Color) (outline : Color) (width : ℤ)
  | label (x y : ℤ) (s : String) (fill : Color)
deriving DecidableEq

/-- A composed frame: canvas size, background colour, and the draw calls in
their issue order. -/
structure Frame where
  width : ℤ
  height : ℤ
  background : Color
  ops : List DrawOp
deriving DecidableEq

/-- Sequential effectful map: the `for`-loop shape used by the rendering
code (process each element in order, failing fast on the first error). -/
def mapE {α β : Type} (f : α → Except String β) : List α → Except String (List β)
  | [] => .ok []
  | a :: l => do
    let b ← f a
    let bs ← mapE f l
    pure (b :: bs)

/-- Python `list.index(a)`: first position of `a`, `ValueError` if absent. -/
def pyIndex (l : List ℕ) (a : ℕ) : Except String ℕ :=
  if a ∈ l then .ok (l.indexOf a) else .error "ValueError"

/-- The `(dx, dy)` offsets of the white halo strokes, in the order of the
nested `for dx ... for dy ...` loops with `(0, 0)` skipped. -/
def haloOffsets : List (ℤ × ℤ) :=
  [(-1, -1), (-1, 0), (-1, 1), (0, -1), (0, 1), (1, -1), (1, 0), (1, 1)]

/-- The draw calls for one dot, shared verbatim by `_render_initial_state`,
`_render_final_state` and `_animate_single_connection`: the circle, then
(when numbers are shown) the label `connection_order.index(idx) + 1`
centered on the dot, as eight white halo strokes plus a black fill. -/
def drawDotOps (cfg : Config) (font : Font) (order : List ℕ) (idx : ℕ)
    (p : Pt) : Except String (List DrawOp) := do
  let j ← pyIndex order idx
  let dotNumber := j + 1
  let ell : DrawOp := .ellipse (p.1 - cfg.dotRadius) (p.2 - cfg.dotRadius)
    (p.1 + cfg.dotRadius) (p.2 + cfg.dotRadius) cfg.dotColor (0, 0, 0) 2
  if cfg.showNumbers then
    let t := toString dotNumber
    let bbox := font t
    let tx := p.1 - pyFloorDiv (bbox.2.2.1 - bbox.1) 2
    let ty := p.2 - pyFloorDiv (bbox.2.2.2 - bbox.2.1) 2
    let halo := haloOffsets.map fun d =>
      DrawOp.label (tx + d.1) (ty + d.2) t (255, 255, 255)
    pure (ell :: (halo ++ [DrawOp.label tx ty t (0, 0, 0)]))
  else
    pure [ell]

/-- `_render_initial_state`: a background-coloured canvas with dots only. -/
def renderInitialState (cfg : Config) (font : Font) (points : List Pt)
    (order : List ℕ) : Except String Frame := do
  let opss ← mapE (fun ip => drawDotOps cfg font order ip.1 ip.2) points.enum
  pure ⟨cfg.imageWidth, cfg.imageHeight, cfg.backgroundColor, opss.flatten⟩

/-- `_render_final_state`: all connection segments in order, dots on top. -/
def renderFinalState (cfg : Config) (font : Font) (points : List Pt)
    (order : List ℕ) : Except String Frame := do
  let lineOps := (List.range (order.length - 1)).map fun i =>
    let p1 := points.getD (order.getD i 0) (0, 0)
    let p2 := points.getD (order.getD (i + 1) 0) (0, 0)
    DrawOp.lineSeg p1.1 p1.2 p2.1 p2.2 cfg.lineColor cfg.lineWidth
  let opss ← mapE (fun ip => drawDotOps cfg font order ip.1 ip.2) points.enum
  pure ⟨cfg.imageWidth, cfg.imageHeight, cfg.backgroundColor,
    lineOps ++ opss.flatten⟩

/-- One frame of `_animate_single_connection`: the first `numCompleted`
connections drawn in full (guarded by `conn_idx < len(order) - 1`), then
the partial segment of the current connection at the given progress
(skipped when the progress is 0), then all dots. -/
def animationFrame (cfg : Config) (font : Font) (points : List Pt)
    (order : List ℕ) (numCompleted fromIdx toIdx : ℕ) (progress : ℚ) :
    Except String Frame := do
  let p1 := points.getD fromIdx (0, 0)
  let p2 := points.getD toIdx (0, 0)
  let completedOps :=
    ((List.range numCompleted).filter fun c => c < order.length - 1).map fun c =>
      let q1 := points.getD (order.getD c 0) (0, 0)
      let q2 := points.getD (order.getD (c + 1) 0) (0, 0)
      DrawOp.lineSeg q1.1 q1.2 q2.1 q2.2 cfg.lineColor cfg.lineWidth
  let partialOps : List DrawOp :=
    if 0 < progress then
      [DrawOp.lineSeg p1.1 p1.2 ((p1.1 : ℚ) + ((p2.1 : ℚ) - p1.1) * progress)
        ((p1.2 : ℚ) + ((p2.2 : ℚ) - p1.2) * progress) cfg.lineColor cfg.lineWidth]
    else []
  let opss ← mapE (fun ip => drawDotOps cfg font order ip.1 ip.2) points.enum
  pure ⟨cfg.imageWidth, cfg.imageHeight, cfg.backgroundColor,
    completedOps ++ partialOps ++ opss.flatten⟩

/-- `_animate_single_connection`: `numFrames` frames, frame `i` at progress
`i / (numFrames - 1)` (or `1.0` when `numFrames ≤ 1`). -/
def animateSingleConnection (cfg : Config) (font : Font) (points : List Pt)
    (order : List ℕ) (numCompleted fromIdx toIdx numFrames : ℕ) :
    Except String (List Frame) :=
  mapE (fun (i : ℕ) =>
    animationFrame cfg font points order numCompleted fromIdx toIdx
      (if 1 < numFrames then (i : ℚ) / ((numFrames : ℚ) - 1) else 1))
    (List.range numFrames)

/-- `_create_connection_animation_frames`: hold the initial frame, animate
connection `k` passing `k + 1` as the completed-connection count (exactly
as the source does), then hold the final frame. -/
def createConnectionAnimationFrames (cfg : Config) (font : Font)
    (points : List Pt) (order : List ℕ) (holdFrames framesPerConnection : ℕ) :
    Except String (List Frame) := do
  let initialFrame ← renderInitialState cfg font points order
  let connFramess ← mapE (fun k =>
    animateSingleConnection cfg font points order (k + 1) (order.getD k 0)
      (order.getD (k + 1) 0) framesPerConnection) (List.range (order.length - 1))
  let finalFrame ← renderFinalState cfg font points order
  pure (List.replicate holdFrames initialFrame ++ connFramess.flatten
    ++ List.replicate holdFrames finalFrame)

instance {ε α : Type _} [DecidableEq ε] [DecidableEq α] :
    DecidableEq (Except ε α) := fun a b =>
  match a, b with
  | .ok x, .ok y =>
    if h : x = y then isTrue (congrArg _ h)
    else isFalse fun hc => h (Except.ok.inj hc)
  | .error x, .error y =>
    if h : x = y then isTrue (congrArg _ h)
    else isFalse fun hc => h (Except.error.inj hc)
  | .ok _, .error _ => isFalse fun hc => Except.noConfusion hc
  | .error _, .ok _ => isFalse fun hc => Except.noConfusion hc

/-- A point lies inside the padded canvas region `[margin, dim - margin]`
on both axes. -/
def InBounds (margin width height : ℤ) (p : Pt) : Prop :=
  margin ≤ p.1 ∧ p.1 ≤ width - margin ∧ margin ≤ p.2 ∧ p.2 ≤ height - margin

/-- Whether a frame issues at least one line-segment draw call. -/
def frameHasLine (f : Frame) : Bool :=
  f.ops.any fun op =>
    match op with
    | .lineSeg _ _ _ _ _ _ => true
    | _ => false

/-- The nearest-neighbour step property of `_find_path_order` at step `k`
(0-based over the appended points): the entry at position `k + 1` of the
visit order is an unvisited in-range index whose squared distance to the
current point is minimal among all unvisited indices, ties resolved toward
the smaller index (the strict `<` scan keeps the first minimum). -/
def GreedyStep (points : List Pt) (order : List ℕ) (k : ℕ) : Prop :=
  let visited := order.take (k + 1)
  let cur := points.getD (order.getD k 0) (0, 0)
  let nxt := order.getD (k + 1) 0
  nxt ∉ visited ∧ nxt < points.length ∧
    ∀ i < points.length, i ∉ visited →
      dist2 (points.getD nxt (0, 0)) cur ≤ dist2 (points.getD i (0, 0)) cur ∧
      (dist2 (points.getD i (0, 0)) cur = dist2 (points.getD nxt (0, 0)) cur →
        nxt ≤ i)

/-- Invariant of the index scan of `_find_path_order` after all indices
below `bound` have been examined: `none` means every scanned index was
already visited; `some (j, dj)` is the first minimum so far. -/
def bestInv (points : List Pt) (visited : List ℕ) (cur : Pt) (bound : ℕ) :
    Option (ℕ × ℤ) → Prop
  | none => ∀ i < bound, i ∈ visited
  | some jd => jd.1 < bound ∧ jd.1 ∉ visited ∧
      jd.2 = dist2 (points.getD jd.1 (0, 0)) cur ∧
      ∀ i < bound, i ∉ visited →
        jd.2 ≤ dist2 (points.getD i (0, 0)) cur ∧
        (dist2 (points.getD i (0, 0)) cur = jd.2 → jd.1 ≤ i)

/-! ### Helper lemmas -/

theorem consSetPerm (a : ℕ) : ∀ (xs : List ℕ) (m : ℕ), m < xs.length →
    List.Perm (xs.getD m 0 :: xs.set m a) (a :: xs) := by
  intro xs
  induction xs with
  | nil => intro m h; simp at h
  | cons x xs ih =>
    intro m hm
    cases m with
    | zero => simpa using List.Perm.swap a x xs
    | succ m =>
      have hm' : m < xs.length := by simpa using hm
      have h1 : List.Perm (xs.getD m 0 :: x :: xs.set m a)
          (x :: xs.getD m 0 :: xs.set m a) := List.Perm.swap _ _ _
      have h2 : List.Perm (x :: xs.getD m 0 :: xs.set m a) (x :: a :: xs) :=
        List.Perm.cons x (ih m hm')
      have h3 : List.Perm (x :: a :: xs) (a :: x :: xs) := List.Perm.swap _ _ _
      simpa using h1.trans (h2.trans h3)

theorem setSetPerm : ∀ (l : List ℕ) (i j : ℕ), i < l.length → j < l.length →
    List.Perm ((l.set i (l.getD j 0)).set j (l.getD i 0)) l := by
  intro l
  induction l with
  | nil => intro i j hi; simp at hi
  | cons x xs ih =>
    intro i j hi hj
    cases i with
    | zero =>
      cases j with
      | zero => simp
      | succ m =>
        have hm : m < xs.length := by simpa using hj
        simpa using consSetPerm x xs m hm
    | succ n =>
      cases j with
      | zero =>
        have hn : n < xs.length := by simpa using hi
        simpa using consSetPerm x xs n hn
      | succ m =>
        have hn : n < xs.length := by simpa using hi
        have hm : m < xs.length := by simpa using hj
        simpa using List.Perm.cons x (ih n m hn hm)

theorem swapL_perm (l : List ℕ) (i j : ℕ) : List.Perm (swapL l i j) l := by
  unfold swapL
  split
  · rename_i a b ha hb
    obtain ⟨hi, hgi⟩ := List.get?_eq_some.1 ha
    obtain ⟨hj, hgj⟩ := List.get?_eq_some.1 hb
    rw [List.get_eq_getElem] at hgi hgj
    have ha' : l.getD i 0 = a := by rw [List.getD_eq_getElem _ _ hi]; exact hgi
    have hb' : l.getD j 0 = b := by rw [List.getD_eq_getElem _ _ hj]; exact hgj
    rw [← ha', ← hb']
    exact setSetPerm l i j hi hj
  · exact List.Perm.refl l

theorem shuffleAux_perm (rng : ℕ → ℕ) :
    ∀ (idxs : List ℕ) (l : List ℕ) (pos : ℕ),
      List.Perm (shuffleAux rng idxs l pos).1 l := by
  intro idxs
  induction idxs with
  | nil => intro l pos; exact List.Perm.refl l
  | cons i rest ih =>
    intro l pos
    exact (ih (swapL l i (rng pos % (i + 1))) (pos + 1)).trans (swapL_perm l _ _)

theorem shuffle_perm (rng : ℕ → ℕ) (l : List ℕ) (pos : ℕ) :
    List.Perm (shuffle rng l pos).1 l :=
  shuffleAux_perm rng _ l pos

theorem findPathOrder_trivial (rng : ℕ → ℕ) (points : List Pt) (pos : ℕ)
    (h : points.length ≤ 1) :
    findPathOrder rng points pos = .ok (List.range points.length, pos) := by
  simp [findPathOrder, h]

theorem findPathOrder_ok (rng : ℕ → ℕ) (points : List Pt) (pos : ℕ)
    (h : 2 ≤ points.length) :
    findPathOrder rng points pos =
      .ok (pathLoop points (points.length - 1) [rng pos % points.length]
        (rng pos % points.length), pos + 1) := by
  have h1 : ¬points.length ≤ 1 := by omega
  have hle : (0 : ℤ) ≤ (points.length : ℤ) - 1 := by
    have h2 : (2 : ℤ) ≤ (points.length : ℤ) := by exact_mod_cast h
    omega
  have hcast : ((0 : ℤ) + (rng pos : ℤ) % ((points.length : ℤ) - 1 - 0 + 1)).toNat
      = rng pos % points.length := by
    have he : ((points.length : ℤ) - 1 - 0 + 1) = (points.length : ℤ) := by ring
    rw [he, zero_add, ← Int.natCast_mod, Int.toNat_natCast]
  simp only [findPathOrder, h1, if_false, randint, if_pos hle, bind, Except.bind, hcast]

/-! ### Claims C6, C7, C8 -/

/-- C6: when the connection mode is `"sequential"`, the ordering strategy
returns exactly the identity permutation `[0, 1, …, N-1]` for every point
set (and leaves the random stream untouched). -/
theorem sequential_mode_identity (rng : ℕ → ℕ) (points : List Pt) (pos : ℕ) :
    determineConnectionOrder rng "sequential" points pos =
      .ok (List.range points.length, pos) := by
  simp [determineConnectionOrder]

/-- C7: an unrecognized connection-mode string does not raise and falls back
to the sequential (identity) ordering; moreover the ordering operation
never fails for any mode and any point set. -/
theorem unknown_mode_falls_back_sequential (rng : ℕ → ℕ)
    (connectionType : String) (points : List Pt) (pos : ℕ) :
    (connectionType ∉ (["sequential", "path", "random"] : List String) →
      determineConnectionOrder rng connectionType points pos =
        .ok (List.range points.length, pos)) ∧
    ∃ r, determineConnectionOrder rng connectionType points pos = .ok r := by
  constructor
  · intro h
    simp only [List.mem_cons, List.mem_singleton, not_or] at h
    obtain ⟨h1, h2, h3, -⟩ := h
    simp [determineConnectionOrder, h1, h2, h3]
  · unfold determineConnectionOrder
    split
    · exact ⟨_, rfl⟩
    · split
      · by_cases hlen : points.length ≤ 1
        · exact ⟨_, findPathOrder_trivial rng points pos hlen⟩
        · exact ⟨_, findPathOrder_ok rng points pos (by omega)⟩
      · split
        · exact ⟨_, rfl⟩
        · exact ⟨_, rfl⟩

/-- Closed witness for C7 at a concrete unknown mode. -/
theorem unknown_mode_falls_back_sequential_witness :
    ("zigzag" : String) ∉ (["sequential", "path", "random"] : List String) ∧
      determineConnectionOrder (fun _ => 0) "zigzag"
        [((0 : ℤ), (0 : ℤ)), (1, 1)] 0 = .ok (List.range 2, 0) :=
  ⟨by decide,
    (unknown_mode_falls_back_sequential (fun _ => 0) "zigzag"
      [((0 : ℤ), (0 : ℤ)), (1, 1)] 0).1 (by decide)⟩

/-- C8: the random ordering strategy returns a bijection on `[0, N-1]`: a
list of length `N` in which every index `0 ≤ i < N` appears exactly once,
for every random stream. -/
theorem random_order_bijection (rng : ℕ → ℕ) (n pos : ℕ) :
    (shuffle rng (List.range n) pos).1.length = n ∧
      ∀ i < n, (shuffle rng (List.range n) pos).1.count i = 1 := by
  have hperm := shuffle_perm rng (List.range n) pos
  constructor
  · simpa using hperm.length_eq
  · intro i hi
    rw [hperm.count_eq]
    simpa using List.count_eq_one_of_mem (List.nodup_range n) (List.mem_range.2 hi)

/-- Closed witness for C8 at a concrete stream and size. -/
theorem random_order_bijection_witness :
    (1 : ℕ) < 3 ∧ (shuffle (fun _ => 0) (List.range 3) 0).1.count 1 = 1 :=
  ⟨by decide, (random_order_bijection (fun _ => 0) 3 0).2 1 (by decide)⟩

/-! ### Claim C5: nearest-neighbour path ordering -/

theorem scanNearestAux_cons (points : List Pt) (visited : List ℕ) (cur : Pt)
    (i : ℕ) (rest : List ℕ) (best : Option (ℕ × ℤ)) :
    scanNearestAux points visited cur (i :: rest) best =
      if i ∈ visited then scanNearestAux points visited cur rest best
      else
        match best with
        | none => scanNearestAux points visited cur rest
            (some (i, dist2 (points.getD i (0, 0)) cur))
        | some (j, dj) =>
          if dist2 (points.getD i (0, 0)) cur < dj then
            scanNearestAux points visited cur rest
              (some (i, dist2 (points.getD i (0, 0)) cur))
          else scanNearestAux points visited cur rest (some (j, dj)) := rfl

theorem scanNearestAux_inv (points : List Pt) (visited : List ℕ) (cur : Pt) :
    ∀ (c s : ℕ) (best : Option (ℕ × ℤ)),
      bestInv points visited cur s best →
      bestInv points visited cur (s + c)
        (scanNearestAux points visited cur (List.range' s c) best) := by
  intro c
  induction c with
  | zero =>
    intro s best h
    simpa [scanNearestAux] using h
  | succ c ih =>
    intro s best h
    have harith : s + (c + 1) = (s + 1) + c := by omega
    rw [harith, List.range'_succ, scanNearestAux_cons]
    by_cases hv : s ∈ visited
    · rw [if_pos hv]
      have h' : bestInv points visited cur (s + 1) best := by
        cases best with
        | none =>
          intro i hi
          rcases Nat.lt_succ_iff_lt_or_eq.1 hi with h2 | h2
          · exact h i h2
          · exact h2 ▸ hv
        | some jd =>
          obtain ⟨h1, h2, h3, h4⟩ := h
          refine ⟨Nat.lt_succ_of_lt h1, h2, h3, ?_⟩
          intro i hi hiv
          rcases Nat.lt_succ_iff_lt_or_eq.1 hi with h5 | h5
          · exact h4 i h5 hiv
          · exact absurd (h5 ▸ hv) hiv
      exact ih (s + 1) best h'
    · rw [if_neg hv]
      cases best with
      | none =>
        have h' : bestInv points visited cur (s + 1)
            (some (s, dist2 (points.getD s (0, 0)) cur)) := by
          refine ⟨Nat.lt_succ_self s, hv, rfl, ?_⟩
          intro i hi hiv
          rcases Nat.lt_succ_iff_lt_or_eq.1 hi with h5 | h5
          · exact absurd (h i h5) hiv
          · subst h5; exact ⟨le_refl _, fun _ => le_refl _⟩
        exact ih (s + 1) _ h'
      | some jd =>
        obtain ⟨jidx, dj⟩ := jd
        obtain ⟨h1, h2, h3, h4⟩ := h
        dsimp only
        by_cases hd : dist2 (points.getD s (0, 0)) cur < dj
        · rw [if_pos hd]
          have h' : bestInv points visited cur (s + 1)
              (some (s, dist2 (points.getD s (0, 0)) cur)) := by
            refine ⟨Nat.lt_succ_self s, hv, rfl, ?_⟩
            intro i hi hiv
            rcases Nat.lt_succ_iff_lt_or_eq.1 hi with h5 | h5
            · have h6 : dj ≤ dist2 (points.getD i (0, 0)) cur := (h4 i h5 hiv).1
              constructor
              · exact le_trans (le_of_lt hd) h6
              · intro heq
                have h7 : dist2 (points.getD i (0, 0)) cur
                    = dist2 (points.getD s (0, 0)) cur := heq
                show s ≤ i
                omega
            · subst h5; exact ⟨le_refl _, fun _ => le_refl _⟩
          exact ih (s + 1) _ h'
        · rw [if_neg hd]
          have h' : bestInv points visited cur (s + 1) (some (jidx, dj)) := by
            refine ⟨Nat.lt_succ_of_lt h1, h2, h3, ?_⟩
            intro i hi hiv
            rcases Nat.lt_succ_iff_lt_or_eq.1 hi with h5 | h5
            · exact h4 i h5 hiv
            · subst h5
              exact ⟨not_lt.1 hd, fun _ => Nat.le_of_lt_succ (Nat.lt_succ_of_lt h1)⟩
          exact ih (s + 1) _ h'

theorem scanNearest_some_spec (points : List Pt) (visited : List ℕ)
    (curIdx j : ℕ) (h : scanNearest points visited curIdx = some j) :
    j < points.length ∧ j ∉ visited ∧
      ∀ i < points.length, i ∉ visited →
        dist2 (points.getD j (0, 0)) (points.getD curIdx (0, 0)) ≤
          dist2 (points.getD i (0, 0)) (points.getD curIdx (0, 0)) ∧
        (dist2 (points.getD i (0, 0)) (points.getD curIdx (0, 0)) =
          dist2 (points.getD j (0, 0)) (points.getD curIdx (0, 0)) → j ≤ i) := by
  have hbase : bestInv points visited (points.getD curIdx (0, 0)) 0 none := by
    intro i hi
    exact absurd hi (Nat.not_lt_zero i)
  have hinv := scanNearestAux_inv points visited (points.getD curIdx (0, 0))
    points.length 0 none hbase
  rw [Nat.zero_add, ← List.range_eq_range'] at hinv
  unfold scanNearest at h
  cases hres : scanNearestAux points visited (points.getD curIdx (0, 0))
      (List.range points.length) none with
  | none => rw [hres] at h; simp at h
  | some jd =>
    rw [hres] at h hinv
    obtain ⟨h1, h2, h3, h4⟩ := hinv
    obtain rfl : jd.1 = j := by simpa using h
    refine ⟨h1, h2, ?_⟩
    intro i hi hiv
    have h5 := h4 i hi hiv
    rw [h3] at h5
    exact h5

theorem scanNearest_none_spec (points : List Pt) (visited : List ℕ)
    (curIdx : ℕ) (h : scanNearest points visited curIdx = none) :
    ∀ i < points.length, i ∈ visited := by
  have hbase : bestInv points visited (points.getD curIdx (0, 0)) 0 none := by
    intro i hi
    exact absurd hi (Nat.not_lt_zero i)
  have hinv := scanNearestAux_inv points visited (points.getD curIdx (0, 0))
    points.length 0 none hbase
  rw [Nat.zero_add, ← List.range_eq_range'] at hinv
  unfold scanNearest at h
  cases hres : scanNearestAux points visited (points.getD curIdx (0, 0))
      (List.range points.length) none with
  | none => rw [hres] at hinv; exact hinv
  | some jd => rw [hres] at h; simp at h

theorem pathLoop_spec (points : List Pt) :
    ∀ (fuel : ℕ) (order : List ℕ) (curIdx : ℕ),
      order ≠ [] →
      order.Nodup →
      (∀ i ∈ order, i < points.length) →
      order.getLast? = some curIdx →
      order.length + fuel = points.length →
      ∃ t, pathLoop points fuel order curIdx = order ++ t ∧
        (order ++ t).length = points.length ∧
        (order ++ t).Nodup ∧
        (∀ i ∈ order ++ t, i < points.length) ∧
        ∀ k, order.length ≤ k + 1 → k + 1 < points.length →
          GreedyStep points (order ++ t) k := by
  intro fuel
  induction fuel with
  | zero =>
    intro order curIdx hne hnd hmem hlast hlen
    refine ⟨[], by simp [pathLoop], by simpa using hlen, by simpa using hnd,
      by simpa using hmem, ?_⟩
    intro k hk1 hk2
    exact absurd hk2 (by omega)
  | succ fuel ih =>
    intro order curIdx hne hnd hmem hlast hlen
    have hscan : ∃ nxt, scanNearest points order curIdx = some nxt := by
      cases hres : scanNearest points order curIdx with
      | some nxt => exact ⟨nxt, rfl⟩
      | none =>
        exfalso
        have hall := scanNearest_none_spec points order curIdx hres
        have hsub : List.range points.length ⊆ order := fun i hi =>
          hall i (List.mem_range.1 hi)
        have hsp := (List.nodup_range points.length).subperm hsub
        have hle := hsp.length_le
        simp at hle
        omega
    obtain ⟨nxt, hres⟩ := hscan
    obtain ⟨hnlt, hnmem, hmin⟩ := scanNearest_some_spec points order curIdx nxt hres
    have hnd' : (order ++ [nxt]).Nodup := by simp [List.nodup_append, hnmem, hnd]
    have hmem' : ∀ i ∈ order ++ [nxt], i < points.length := by
      intro i hi
      rcases List.mem_append.1 hi with h | h
      · exact hmem i h
      · simp at h; omega
    have hlast' : (order ++ [nxt]).getLast? = some nxt := by
      simp [List.getLast?_append]
    have hlen' : (order ++ [nxt]).length + fuel = points.length := by
      simp only [List.length_append, List.length_singleton]
      omega
    obtain ⟨t, hres2, hlen2, hnd2, hmem2, hgreedy2⟩ :=
      ih (order ++ [nxt]) nxt (by simp) hnd' hmem' hlast' hlen'
    have hassoc : (order ++ [nxt]) ++ t = order ++ (nxt :: t) := by simp
    rw [hassoc] at hres2 hlen2 hnd2 hmem2
    refine ⟨nxt :: t, ?_, hlen2, hnd2, hmem2, ?_⟩
    · simp only [pathLoop]
      rw [hres]
      exact hres2
    · intro k hk1 hk2
      by_cases hcase : order.length + 1 ≤ k + 1
      · have hg := hgreedy2 k (by simpa using hcase) hk2
        rwa [hassoc] at hg
      · have hk1' : k + 1 = order.length := by omega
        have hklt : k < order.length := by omega
        have htake : (order ++ (nxt :: t)).take (k + 1) = order := by
          rw [hk1', List.take_left]
        have hlt2 : order.length - 1 < order.length := by
          cases order with
          | nil => exact absurd rfl hne
          | cons a l => simp
        have hgetk : (order ++ (nxt :: t)).getD k 0 = curIdx := by
          rw [List.getD_append _ _ _ _ hklt]
          have hk' : k = order.length - 1 := by omega
          rw [hk', List.getD_eq_getElem _ _ hlt2, ← List.getLast_eq_getElem order hne]
          have h2 := List.getLast?_eq_getLast order hne
          rw [h2] at hlast
          exact Option.some.inj hlast
        have hgetk1 : (order ++ (nxt :: t)).getD (k + 1) 0 = nxt := by
          rw [hk1', List.getD_append_right _ _ _ _ (le_refl _)]
          simp
        simp only [GreedyStep]
        rw [htake, hgetk, hgetk1]
        exact ⟨hnmem, hnlt, hmin⟩

/-- C5: the `path` ordering strategy: for `N ≤ 1` the trivial order is
returned unchanged; for `N ≥ 2` the result is a permutation of
`[0, N-1]` that starts at the randomly drawn start index and whose every
step appends the unvisited point of minimum Euclidean distance to the
current point, ties broken toward the lowest index (strict `<` scan, first
minimum wins). -/
theorem path_order_nearest_neighbour (rng : ℕ → ℕ) (points : List Pt)
    (pos : ℕ) :
    (points.length ≤ 1 →
      findPathOrder rng points pos = .ok (List.range points.length, pos)) ∧
    (2 ≤ points.length →
      ∃ order, findPathOrder rng points pos = .ok (order, pos + 1) ∧
        List.Perm order (List.range points.length) ∧
        order.getD 0 0 = rng pos % points.length ∧
        ∀ k, k + 1 < points.length → GreedyStep points order k) := by
  constructor
  · exact findPathOrder_trivial rng points pos
  · intro h2
    have hrun := findPathOrder_ok rng points pos h2
    have hstartlt : rng pos % points.length < points.length :=
      Nat.mod_lt _ (by omega)
    obtain ⟨t, hres, hlen, hnodup, hmem, hgreedy⟩ :=
      pathLoop_spec points (points.length - 1) [rng pos % points.length]
        (rng pos % points.length) (by simp) (by simp)
        (by simpa using hstartlt) (by simp) (by simp; omega)
    refine ⟨[rng pos % points.length] ++ t, by rw [hrun, hres], ?_, by simp, ?_⟩
    · have hsub : ([rng pos % points.length] ++ t) ⊆ List.range points.length :=
        fun i hi => List.mem_range.2 (hmem i hi)
      have hsp := hnodup.subperm hsub
      exact hsp.perm_of_length_le (by rw [hlen]; simp)
    · intro k hk
      exact hgreedy k (by simp) hk

/-- Closed witness for C5 on a concrete three-point set and stream. -/
theorem path_order_nearest_neighbour_witness :
    2 ≤ List.length [((0 : ℤ), (0 : ℤ)), (10, 0), (30, 0)] ∧
      ∃ order, findPathOrder (fun _ => 1)
          [((0 : ℤ), (0 : ℤ)), (10, 0), (30, 0)] 0 = .ok (order, 0 + 1) ∧
        List.Perm order
          (List.range (List.length [((0 : ℤ), (0 : ℤ)), (10, 0), (30, 0)])) ∧
        order.getD 0 0 =
          (fun (_ : ℕ) => 1) 0 % List.length [((0 : ℤ), (0 : ℤ)), (10, 0), (30, 0)] ∧
        ∀ k, k + 1 < List.length [((0 : ℤ), (0 : ℤ)), (10, 0), (30, 0)] →
          GreedyStep [((0 : ℤ), (0 : ℤ)), (10, 0), (30, 0)] order k :=
  ⟨by decide, (path_order_nearest_neighbour (fun _ => 1)
    [((0 : ℤ), (0 : ℤ)), (10, 0), (30, 0)] 0).2 (by decide)⟩

/-! ### Claim C4: accepted draws respect the minimum separation -/

theorem randint_ok (rng : ℕ → ℕ) (a b : ℤ) (pos : ℕ) (h : a ≤ b) :
    randint rng a b pos = .ok (a + (rng pos : ℤ) % (b - a + 1), pos + 1) := by
  simp [randint, h]

theorem randint_bounds (rng : ℕ → ℕ) (a b : ℤ) (pos : ℕ) (h : a ≤ b) :
    a ≤ a + (rng pos : ℤ) % (b - a + 1) ∧
      a + (rng pos : ℤ) % (b - a + 1) ≤ b := by
  have hpos : (0 : ℤ) < b - a + 1 := by omega
  have h1 : 0 ≤ (rng pos : ℤ) % (b - a + 1) :=
    Int.emod_nonneg _ (by omega)
  have h2 : (rng pos : ℤ) % (b - a + 1) < b - a + 1 :=
    Int.emod_lt_of_pos _ hpos
  omega

theorem drawAttempts_succ (rng : ℕ → ℕ) (margin width height : ℤ)
    (points : List Pt) (fuel pos : ℕ)
    (hx : margin ≤ width - margin) (hy : margin ≤ height - margin) :
    drawAttempts rng margin width height points (fuel + 1) pos =
      if tooClose margin
          (margin + (rng pos : ℤ) % (width - margin - margin + 1),
           margin + (rng (pos + 1) : ℤ) % (height - margin - margin + 1))
          points then
        drawAttempts rng margin width height points fuel (pos + 1 + 1)
      else .ok (some
          (margin + (rng pos : ℤ) % (width - margin - margin + 1),
           margin + (rng (pos + 1) : ℤ) % (height - margin - margin + 1)),
        pos + 1 + 1) := by
  simp only [drawAttempts, randint, hx, hy, if_true, bind, Except.bind]

theorem drawAttempts_xerr (rng : ℕ → ℕ) (margin width height : ℤ)
    (points : List Pt) (fuel pos : ℕ) (hx : ¬margin ≤ width - margin) :
    drawAttempts rng margin width height points (fuel + 1) pos =
      .error "ValueError: empty range for randrange" := by
  simp [drawAttempts, randint, hx, bind, Except.bind]

theorem drawAttempts_yerr (rng : ℕ → ℕ) (margin width height : ℤ)
    (points : List Pt) (fuel pos : ℕ) (hx : margin ≤ width - margin)
    (hy : ¬margin ≤ height - margin) :
    drawAttempts rng margin width height points (fuel + 1) pos =
      .error "ValueError: empty range for randrange" := by
  simp [drawAttempts, randint, hx, hy, bind, Except.bind]

theorem drawAttempts_accept_far (rng : ℕ → ℕ) (margin width height : ℤ)
    (points : List Pt) :
    ∀ (fuel pos : ℕ) (p : Pt) (pos' : ℕ),
      drawAttempts rng margin width height points fuel pos = .ok (some p, pos') →
      ∀ q ∈ points, 9 * margin ^ 2 ≤ 4 * dist2 p q := by
  intro fuel
  induction fuel with
  | zero =>
    intro pos p pos' h
    simp [drawAttempts] at h
  | succ fuel ih =>
    intro pos p pos' h
    by_cases hx : margin ≤ width - margin
    · by_cases hy : margin ≤ height - margin
      · rw [drawAttempts_succ rng margin width height points fuel pos hx hy] at h
        split at h
        · exact ih _ _ _ h
        · rename_i hc
          simp only [Except.ok.injEq, Prod.mk.injEq, Option.some.injEq] at h
          obtain ⟨hp, -⟩ := h
          intro q hq
          rw [← hp]
          by_contra hlt
          apply hc
          simp only [tooClose, List.any_eq_true, decide_eq_true_eq]
          exact ⟨q, hq, by omega⟩
      · rw [drawAttempts_yerr rng margin width height points fuel pos hx hy] at h
        simp at h
    · rw [drawAttempts_xerr rng margin width height points fuel pos hx] at h
      simp at h

/-- C4: any candidate accepted by the random-draw phase lies at Euclidean
distance at least `margin * 1.5` from **every** previously placed point
(stated on squared distances: `4·d² ≥ 9·margin²`, equivalent over the
reals); hence any pair of sampled points whose later member was accepted
by random draw — in particular any pair with neither member placed by the
grid fallback — respects the minimum separation. -/
theorem accepted_draw_min_separation (rng : ℕ → ℕ)
    (margin width height : ℤ) (points : List Pt) (pos : ℕ) (p : Pt)
    (pos' : ℕ)
    (h : drawAttempts rng margin width height points 100 pos =
      .ok (some p, pos')) :
    ∀ q ∈ points, 9 * margin ^ 2 ≤ 4 * dist2 p q :=
  drawAttempts_accept_far rng margin width height points 100 pos p pos' h

/-- Closed witness for C4: a concrete accepted draw against one existing
point. -/
theorem accepted_draw_min_separation_witness :
    drawAttempts (fun _ => 100) 40 512 512 [((40 : ℤ), (40 : ℤ))] 100 0 =
      .ok (some (140, 140), 2) ∧
    ∀ q ∈ [((40 : ℤ), (40 : ℤ))], 9 * 40 ^ 2 ≤ 4 * dist2 (140, 140) q :=
  ⟨by decide,
    accepted_draw_min_separation (fun _ => 100) 40 512 512
      [((40 : ℤ), (40 : ℤ))] 0 (140, 140) 2 (by decide)⟩

/-! ### Claims C3 and C9: sampler totality, bounds and the grid fallback -/

theorem ceilSqrt_sq_le (n : ℕ) : n ≤ ceilSqrt n * ceilSqrt n := by
  unfold ceilSqrt
  split
  · omega
  · exact le_of_lt (by simpa [Nat.succ_eq_add_one] using Nat.lt_succ_sqrt n)

theorem ceilSqrt_two_le (n : ℕ) (h : 2 ≤ n) : 2 ≤ ceilSqrt n := by
  by_contra hc
  have h1 : ceilSqrt n ≤ 1 := by omega
  have h2 : ceilSqrt n * ceilSqrt n ≤ 1 * 1 := Nat.mul_le_mul h1 h1
  have h3 := ceilSqrt_sq_le n
  omega

theorem pyTrunc_bounds (a c : ℤ) (q : ℚ) (h0 : 0 ≤ a) (h1 : (a : ℚ) ≤ q)
    (h2 : q ≤ (c : ℚ)) : a ≤ pyTrunc q ∧ pyTrunc q ≤ c := by
  have hq : (0 : ℚ) ≤ q := le_trans (by exact_mod_cast h0) h1
  rw [pyTrunc, if_pos hq]
  constructor
  · exact Int.le_floor.2 h1
  · have h3 := Int.floor_le_floor h2
    rwa [Int.floor_intCast] at h3

theorem pyTrunc_intCast (z : ℤ) : pyTrunc ((z : ℤ) : ℚ) = z := by
  unfold pyTrunc
  split
  · exact Int.floor_intCast z
  · exact Int.ceil_intCast z

theorem gridCoord_bounds (margin dim : ℤ) (t gs : ℕ) (hm : 0 ≤ margin)
    (hd : 2 * margin ≤ dim) (hgs : 1 < gs) (ht : t ≤ gs - 1) :
    (margin : ℚ) ≤
        (margin : ℚ) + ((dim : ℚ) - 2 * margin) * t / ((gs - 1 : ℕ) : ℚ) ∧
      (margin : ℚ) + ((dim : ℚ) - 2 * margin) * t / ((gs - 1 : ℕ) : ℚ) ≤
        ((dim - margin : ℤ) : ℚ) := by
  have hd' : (0 : ℚ) ≤ (dim : ℚ) - 2 * margin := by
    have h1 : ((2 * margin : ℤ) : ℚ) ≤ ((dim : ℤ) : ℚ) := by exact_mod_cast hd
    push_cast at h1 ⊢
    linarith
  have hgs1 : 1 ≤ gs - 1 := by omega
  have hgspos : (0 : ℚ) < ((gs - 1 : ℕ) : ℚ) := by exact_mod_cast by omega
  have htq : (t : ℚ) ≤ ((gs - 1 : ℕ) : ℚ) := by exact_mod_cast ht
  constructor
  · have h2 : 0 ≤ ((dim : ℚ) - 2 * margin) * t / ((gs - 1 : ℕ) : ℚ) :=
      div_nonneg (mul_nonneg hd' (by positivity)) (le_of_lt hgspos)
    linarith
  · have h1 : ((dim : ℚ) - 2 * margin) * t / ((gs - 1 : ℕ) : ℚ) ≤
        (dim : ℚ) - 2 * margin := by
      rw [div_le_iff hgspos]
      calc ((dim : ℚ) - 2 * margin) * t
          ≤ ((dim : ℚ) - 2 * margin) * ((gs - 1 : ℕ) : ℚ) :=
            mul_le_mul_of_nonneg_left htq hd'
        _ = ((dim : ℚ) - 2 * margin) * ((gs - 1 : ℕ) : ℚ) := rfl
    push_cast
    linarith

theorem gridPoint_inBounds (numDots : ℕ) (margin width height : ℤ) (idx : ℕ)
    (hn : 2 ≤ numDots) (hidx : idx < numDots) (hm : 0 ≤ margin)
    (hw : 2 * margin ≤ width) (hh : 2 * margin ≤ height) :
    InBounds margin width height (gridPoint numDots margin width height idx) := by
  have hgs : 2 ≤ ceilSqrt numDots := ceilSqrt_two_le numDots hn
  have hsq := ceilSqrt_sq_le numDots
  have hgs1 : 1 < ceilSqrt numDots := hgs
  have hrow : idx / ceilSqrt numDots ≤ ceilSqrt numDots - 1 := by
    have h1 : idx / ceilSqrt numDots < ceilSqrt numDots :=
      Nat.div_lt_of_lt_mul (by omega)
    omega
  have hcol : idx % ceilSqrt numDots ≤ ceilSqrt numDots - 1 := by
    have h1 : idx % ceilSqrt numDots < ceilSqrt numDots := Nat.mod_lt _ (by omega)
    omega
  have hx := gridCoord_bounds margin width (idx % ceilSqrt numDots)
    (ceilSqrt numDots) hm hw hgs1 hcol
  have hy := gridCoord_bounds margin height (idx / ceilSqrt numDots)
    (ceilSqrt numDots) hm hh hgs1 hrow
  have hbx := pyTrunc_bounds margin (width - margin) _ hm hx.1 hx.2
  have hby := pyTrunc_bounds margin (height - margin) _ hm hy.1 hy.2
  simp only [gridPoint, if_pos hgs1]
  exact ⟨hbx.1, hbx.2, hby.1, hby.2⟩

theorem drawAttempts_ok_bounds (rng : ℕ → ℕ) (margin width height : ℤ)
    (points : List Pt) (hx : margin ≤ width - margin)
    (hy : margin ≤ height - margin) :
    ∀ (fuel pos : ℕ), ∃ r pos',
      drawAttempts rng margin width height points fuel pos = .ok (r, pos') ∧
      ∀ p, r = some p → InBounds margin width height p := by
  intro fuel
  induction fuel with
  | zero =>
    intro pos
    exact ⟨none, pos, rfl, by simp⟩
  | succ fuel ih =>
    intro pos
    rw [drawAttempts_succ rng margin width height points fuel pos hx hy]
    split
    · exact ih (pos + 1 + 1)
    · refine ⟨_, pos + 1 + 1, rfl, ?_⟩
      intro p hp
      obtain rfl := (Option.some.inj hp).symm
      have hbx := randint_bounds rng margin (width - margin) pos hx
      have hby := randint_bounds rng margin (height - margin) (pos + 1) hy
      exact ⟨hbx.1, hbx.2, hby.1, hby.2⟩

theorem sampleOnePoint_ok (rng : ℕ → ℕ) (numDots : ℕ)
    (margin width height : ℤ) (points : List Pt) (pos : ℕ) (hn : 2 ≤ numDots)
    (hidx : points.length < numDots) (hm : 0 ≤ margin)
    (hx : margin ≤ width - margin) (hy : margin ≤ height - margin) :
    ∃ p pos', sampleOnePoint rng numDots margin width height points pos =
        .ok (p, pos') ∧
      InBounds margin width height p := by
  obtain ⟨r, pos', hda, hbnd⟩ :=
    drawAttempts_ok_bounds rng margin width height points hx hy 100 pos
  cases r with
  | some p =>
    refine ⟨p, pos', ?_, hbnd p rfl⟩
    simp [sampleOnePoint, hda, bind, Except.bind, pure, Except.pure]
  | none =>
    refine ⟨gridPoint numDots margin width height points.length, pos', ?_, ?_⟩
    · simp [sampleOnePoint, hda, bind, Except.bind, pure, Except.pure]
    · exact gridPoint_inBounds numDots margin width height points.length hn
        hidx hm (by omega) (by omega)

theorem samplePointsAux_spec (rng : ℕ → ℕ) (numDots : ℕ)
    (margin width height : ℤ) (hn : 2 ≤ numDots) (hm : 0 ≤ margin)
    (hx : margin ≤ width - margin) (hy : margin ≤ height - margin) :
    ∀ (k : ℕ) (points : List Pt) (pos : ℕ),
      points.length + k = numDots →
      (∀ p ∈ points, InBounds margin width height p) →
      ∃ res pos',
        samplePointsAux rng numDots margin width height k points pos =
          .ok (res, pos') ∧
        res.length = numDots ∧ ∀ p ∈ res, InBounds margin width height p := by
  intro k
  induction k with
  | zero =>
    intro points pos hlen hbnd
    exact ⟨points, pos, rfl, by omega, hbnd⟩
  | succ k ih =>
    intro points pos hlen hbnd
    obtain ⟨p, pos', hone, hpbnd⟩ := sampleOnePoint_ok rng numDots margin
      width height points pos hn (by omega) hm hx hy
    obtain ⟨res, pos'', hrest, hrlen, hrbnd⟩ := ih (points ++ [p]) pos'
      (by simp only [List.length_append, List.length_singleton]; omega)
      (by
        intro q hq
        rcases List.mem_append.1 hq with hq1 | hq1
        · exact hbnd q hq1
        · simp at hq1; subst hq1; exact hpbnd)
    refine ⟨res, pos'', ?_, hrlen, hrbnd⟩
    simp [samplePointsAux, hone, bind, Except.bind, hrest]

/-- C3 (amended: the canvas must measure at least `2·margin` on each axis,
where `margin = max(3·dotRadius, 40)`; on a smaller canvas the very first
`random.randint(margin, dim - margin)` call has an empty range and raises,
see the counterexample theorem): for every dot count `N ∈ [3, 15]`,
sampling never fails and returns exactly `N` points, each with both
coordinates within `[margin, dim - margin]`, whether a point was accepted
by random draw or placed by the grid fallback. -/
theorem sampler_count_and_bounds (rng : ℕ → ℕ) (numDots : ℕ)
    (dotRadius width height : ℤ) (pos : ℕ) (h3 : 3 ≤ numDots)
    (h15 : numDots ≤ 15) (hw : 2 * max (dotRadius * 3) 40 ≤ width)
    (hh : 2 * max (dotRadius * 3) 40 ≤ height) :
    ∃ pts pos',
      generateTaskPoints rng numDots dotRadius width height pos =
        .ok (pts, pos') ∧
      pts.length = numDots ∧
      ∀ p ∈ pts, InBounds (max (dotRadius * 3) 40) width height p := by
  have hm : (0 : ℤ) ≤ max (dotRadius * 3) 40 := by omega
  obtain ⟨res, pos', h1, h2, h3'⟩ := samplePointsAux_spec rng numDots
    (max (dotRadius * 3) 40) width height (by omega) hm (by omega) (by omega)
    numDots [] pos (by simp) (by simp)
  exact ⟨res, pos', h1, h2, h3'⟩

/-- C3 counterexample: with dot radius 5 the margin is 40, and on a canvas
only 60 pixels wide the first draw is `randint(40, 20)`, whose empty range
raises — sampling does fail for these (claimed-arbitrary) canvas
dimensions. -/
theorem sampler_fails_on_small_canvas :
    generateTaskPoints (fun _ => 0) 3 5 60 512 0 =
      .error "ValueError: empty range for randrange" := by decide

/-- Closed witness for C3 on a standard 512×512 canvas. -/
theorem sampler_count_and_bounds_witness :
    (3 : ℕ) ≤ 3 ∧ (3 : ℕ) ≤ 15 ∧
      2 * max ((5 : ℤ) * 3) 40 ≤ 512 ∧ 2 * max ((5 : ℤ) * 3) 40 ≤ 512 ∧
      ∃ pts pos',
        generateTaskPoints (fun _ => 0) 3 5 512 512 0 = .ok (pts, pos') ∧
        pts.length = 3 ∧
        ∀ p ∈ pts, InBounds (max ((5 : ℤ) * 3) 40) 512 512 p :=
  ⟨by decide, by decide, by decide, by decide,
    sampler_count_and_bounds (fun _ => 0) 3 5 512 512 0 (by decide) (by decide)
      (by decide) (by decide)⟩

/-- C9: when all 100 draws for a point are rejected, the sampler appends
the deterministic grid position for the point's ordinal index
`idx = len(points)` — grid side `ceil(sqrt(count))`, `row = idx // side`,
`col = idx % side`, `x = int(margin + (width − 2·margin)·col/(side − 1))`
and analogously for `y` with `row`, centering (`dim // 2`) when the side
is not greater than 1 — and it does so without re-checking separation: no
hypothesis about the prior points' positions is needed, and the placed
position depends on them only through their number. -/
theorem grid_fallback_on_exhaustion (rng : ℕ → ℕ) (numDots : ℕ)
    (margin width height : ℤ) (points : List Pt) (pos pos' : ℕ)
    (h : drawAttempts rng margin width height points 100 pos =
      .ok (none, pos')) :
    sampleOnePoint rng numDots margin width height points pos =
      .ok (gridPoint numDots margin width height points.length, pos') ∧
    (1 < ceilSqrt numDots →
      gridPoint numDots margin width height points.length =
        (pyTrunc ((margin : ℚ) + ((width : ℚ) - 2 * margin) *
            ((points.length % ceilSqrt numDots : ℕ) : ℚ) /
            ((ceilSqrt numDots - 1 : ℕ) : ℚ)),
         pyTrunc ((margin : ℚ) + ((height : ℚ) - 2 * margin) *
            ((points.length / ceilSqrt numDots : ℕ) : ℚ) /
            ((ceilSqrt numDots - 1 : ℕ) : ℚ)))) ∧
    (¬1 < ceilSqrt numDots →
      gridPoint numDots margin width height points.length =
        (pyFloorDiv width 2, pyFloorDiv height 2)) ∧
    ∀ points2 : List Pt, points2.length = points.length →
      gridPoint numDots margin width height points2.length =
        gridPoint numDots margin width height points.length := by
  refine ⟨?_, ?_, ?_, ?_⟩
  · simp [sampleOnePoint, h, bind, Except.bind, pure, Except.pure]
  · intro hgs
    simp [gridPoint, hgs]
  · intro hgs
    simp [gridPoint, hgs, pyTrunc_intCast]
  · intro points2 h2
    rw [h2]

set_option maxRecDepth 10000 in
/-- Closed witness for C9: a prior point at the canvas corner rejects every
one of the 100 identical draws, and the grid fallback fires. -/
theorem grid_fallback_on_exhaustion_witness :
    drawAttempts (fun _ => 0) 40 512 512 [((40 : ℤ), (40 : ℤ))] 100 0 =
      .ok (none, 200) ∧
    sampleOnePoint (fun _ => 0) 3 40 512 512 [((40 : ℤ), (40 : ℤ))] 0 =
      .ok (gridPoint 3 40 512 512 [((40 : ℤ), (40 : ℤ))].length, 200) :=
  ⟨by decide,
    (grid_fallback_on_exhaustion (fun _ => 0) 3 40 512 512
      [((40 : ℤ), (40 : ℤ))] 0 200 (by decide)).1⟩

/-! ### Claims C10, C2, C1: rendering and animation -/

theorem mapE_ok_of_forall {α β : Type} (f : α → Except String β)
    (P : β → Prop) :
    ∀ l : List α, (∀ a ∈ l, ∃ b, f a = .ok b ∧ P b) →
      ∃ bs, mapE f l = .ok bs ∧ bs.length = l.length ∧ ∀ b ∈ bs, P b := by
  intro l
  induction l with
  | nil =>
    intro _
    exact ⟨[], rfl, rfl, by simp⟩
  | cons a l ih =>
    intro h
    obtain ⟨b, hb, hPb⟩ := h a (List.mem_cons_self a l)
    obtain ⟨bs, hbs, hlen, hP⟩ := ih fun x hx => h x (List.mem_cons_of_mem a hx)
    refine ⟨b :: bs, ?_, by simp [hlen], ?_⟩
    · simp [mapE, hb, hbs, bind, Except.bind, pure, Except.pure]
    · intro c hc
      rcases List.mem_cons.1 hc with rfl | hc2
      · exact hPb
      · exact hP c hc2

theorem drawDotOps_ok (cfg : Config) (font : Font) (order : List ℕ)
    (idx : ℕ) (p : Pt) (h : idx ∈ order) :
    ∃ ops, drawDotOps cfg font order idx p = .ok ops := by
  cases hx : drawDotOps cfg font order idx p with
  | ok v => exact ⟨v, rfl⟩
  | error e =>
    by_cases hs : cfg.showNumbers <;>
      simp [drawDotOps, pyIndex, h, hs, bind, Except.bind, pure,
        Except.pure] at hx

theorem dotLoop_ok (cfg : Config) (font : Font) (points : List Pt)
    (order : List ℕ) (hmem : ∀ idx < points.length, idx ∈ order) :
    ∃ opss,
      mapE (fun ip : ℕ × Pt => drawDotOps cfg font order ip.1 ip.2)
        points.enum = .ok opss := by
  obtain ⟨bs, hbs, -, -⟩ := mapE_ok_of_forall
    (fun ip : ℕ × Pt => drawDotOps cfg font order ip.1 ip.2) (fun _ => True)
    points.enum (by
      intro ip hip
      have hget := List.mem_enum_iff_get?.1 hip
      obtain ⟨hlt, -⟩ := List.get?_eq_some.1 hget
      obtain ⟨ops, hops⟩ := drawDotOps_ok cfg font order ip.1 ip.2 (hmem _ hlt)
      exact ⟨ops, hops, trivial⟩)
  exact ⟨bs, hbs⟩

theorem renderInitialState_ok (cfg : Config) (font : Font) (points : List Pt)
    (order : List ℕ) (hmem : ∀ idx < points.length, idx ∈ order) :
    ∃ f, renderInitialState cfg font points order = .ok f := by
  obtain ⟨opss, hopss⟩ := dotLoop_ok cfg font points order hmem
  cases hx : renderInitialState cfg font points order with
  | ok f => exact ⟨f, rfl⟩
  | error e =>
    simp [renderInitialState, hopss, bind, Except.bind, pure,
      Except.pure] at hx

theorem renderFinalState_ok (cfg : Config) (font : Font) (points : List Pt)
    (order : List ℕ) (hmem : ∀ idx < points.length, idx ∈ order) :
    ∃ f, renderFinalState cfg font points order = .ok f := by
  obtain ⟨opss, hopss⟩ := dotLoop_ok cfg font points order hmem
  cases hx : renderFinalState cfg font points order with
  | ok f => exact ⟨f, rfl⟩
  | error e =>
    simp [renderFinalState, hopss, bind, Except.bind, pure, Except.pure] at hx

theorem animationFrame_ok (cfg : Config) (font : Font) (points : List Pt)
    (order : List ℕ) (numCompleted fromIdx toIdx : ℕ) (progress : ℚ)
    (hmem : ∀ idx < points.length, idx ∈ order) :
    ∃ f, animationFrame cfg font points order numCompleted fromIdx toIdx
      progress = .ok f := by
  obtain ⟨opss, hopss⟩ := dotLoop_ok cfg font points order hmem
  cases hx : animationFrame cfg font points order numCompleted fromIdx toIdx
      progress with
  | ok f => exact ⟨f, rfl⟩
  | error e =>
    simp [animationFrame, hopss, bind, Except.bind, pure, Except.pure] at hx

theorem animateSingleConnection_spec (cfg : Config) (font : Font)
    (points : List Pt) (order : List ℕ)
    (numCompleted fromIdx toIdx numFrames : ℕ)
    (hmem : ∀ idx < points.length, idx ∈ order) :
    ∃ frames, animateSingleConnection cfg font points order numCompleted
        fromIdx toIdx numFrames = .ok frames ∧
      frames.length = numFrames := by
  obtain ⟨frames, hfr, hlen, -⟩ := mapE_ok_of_forall
    (fun (i : ℕ) =>
      animationFrame cfg font points order numCompleted fromIdx toIdx
        (if 1 < numFrames then (i : ℚ) / ((numFrames : ℚ) - 1) else 1))
    (fun _ => True) (List.range numFrames) (by
      intro i _
      obtain ⟨f, hf⟩ := animationFrame_ok cfg font points order numCompleted
        fromIdx toIdx
        (if 1 < numFrames then (i : ℚ) / ((numFrames : ℚ) - 1) else 1) hmem
      exact ⟨f, hf, trivial⟩)
  refine ⟨frames, ?_, by rw [hlen, List.length_range]⟩
  unfold animateSingleConnection
  exact hfr

theorem flatten_length_const {β : Type} (c : ℕ) :
    ∀ ls : List (List β), (∀ l ∈ ls, l.length = c) →
      ls.flatten.length = ls.length * c := by
  intro ls
  induction ls with
  | nil => intro _; simp
  | cons l ls ih =>
    intro h
    simp only [List.flatten_cons, List.length_append, List.length_cons]
    rw [h l (List.mem_cons_self l ls), ih fun x hx => h x (List.mem_cons_of_mem l hx)]
    ring

theorem getLast?_replicate_succ {α : Type} (n : ℕ) (a : α) :
    (List.replicate (n + 1) a).getLast? = some a := by
  induction n with
  | zero => rfl
  | succ n ih =>
    rw [List.replicate_succ, List.replicate_succ, List.getLast?_cons_cons,
      ← List.replicate_succ]
    exact ih

theorem createFrames_structure (cfg : Config) (font : Font) (points : List Pt)
    (order : List ℕ) (hold fpc : ℕ)
    (hmem : ∀ idx < points.length, idx ∈ order) :
    ∃ initF finF mid,
      renderInitialState cfg font points order = .ok initF ∧
      renderFinalState cfg font points order = .ok finF ∧
      createConnectionAnimationFrames cfg font points order hold fpc =
        .ok (List.replicate hold initF ++ mid ++ List.replicate hold finF) ∧
      mid.length = (order.length - 1) * fpc := by
  obtain ⟨initF, hinit⟩ := renderInitialState_ok cfg font points order hmem
  obtain ⟨finF, hfin⟩ := renderFinalState_ok cfg font points order hmem
  obtain ⟨framess, hfss, hfsslen, hfssP⟩ := mapE_ok_of_forall
    (fun k => animateSingleConnection cfg font points order (k + 1)
      (order.getD k 0) (order.getD (k + 1) 0) fpc)
    (fun fs => fs.length = fpc) (List.range (order.length - 1)) (by
      intro k _
      obtain ⟨fs, hfs, hfslen⟩ := animateSingleConnection_spec cfg font points
        order (k + 1) (order.getD k 0) (order.getD (k + 1) 0) fpc hmem
      exact ⟨fs, hfs, hfslen⟩)
  refine ⟨initF, finF, framess.flatten, hinit, hfin, ?_, ?_⟩
  · simp only [List.getD_eq_getElem?_getD] at hfss
    simp [createConnectionAnimationFrames, hinit, hfin, hfss, bind,
      Except.bind, pure, Except.pure]
  · rw [flatten_length_const fpc framess hfssP, hfsslen]
    simp

/-- C10: with a visit order that is a permutation of `[0, N-1]`, the label
lookup `connection_order.index(idx)` succeeds for every point index in
every rendering path (initial frame, final frame, and the animation
frames), and the dots receive pairwise distinct labels lying in `1..N`. -/
theorem label_lookup_total (cfg : Config) (font : Font) (points : List Pt)
    (order : List ℕ) (hold fpc : ℕ)
    (hperm : List.Perm order (List.range points.length)) :
    (∀ idx < points.length, pyIndex order idx = .ok (order.indexOf idx)) ∧
    (∃ f, renderInitialState cfg font points order = .ok f) ∧
    (∃ f, renderFinalState cfg font points order = .ok f) ∧
    (∃ frames, createConnectionAnimationFrames cfg font points order hold fpc =
      .ok frames) ∧
    ((List.range points.length).map fun idx => order.indexOf idx + 1).Nodup ∧
    (∀ idx < points.length,
      1 ≤ order.indexOf idx + 1 ∧ order.indexOf idx + 1 ≤ points.length) := by
  have hmem : ∀ idx < points.length, idx ∈ order := fun idx h =>
    hperm.mem_iff.2 (List.mem_range.2 h)
  refine ⟨?_, renderInitialState_ok cfg font points order hmem,
    renderFinalState_ok cfg font points order hmem, ?_, ?_, ?_⟩
  · intro idx h
    simp [pyIndex, hmem idx h]
  · obtain ⟨initF, finF, mid, -, -, hcr, -⟩ :=
      createFrames_structure cfg font points order hold fpc hmem
    exact ⟨_, hcr⟩
  · refine List.Nodup.map_on ?_ (List.nodup_range points.length)
    intro x hx y hy hxy
    have hx' : x ∈ order := hmem x (List.mem_range.1 hx)
    have hy' : y ∈ order := hmem y (List.mem_range.1 hy)
    have : order.indexOf x = order.indexOf y := by omega
    exact (List.indexOf_inj hx' hy').1 this
  · intro idx h
    have h1 : order.indexOf idx < order.length :=
      List.indexOf_lt_length.2 (hmem idx h)
    have h2 : order.length = points.length := by
      simpa using hperm.length_eq
    omega

/-- Closed witness for C10 at a concrete two-point task. -/
theorem label_lookup_total_witness :
    List.Perm [1, 0] (List.range (List.length [((100 : ℤ), (100 : ℤ)), (200, 100)])) ∧
      ∀ idx < List.length [((100 : ℤ), (100 : ℤ)), (200, 100)],
        pyIndex [1, 0] idx = .ok (List.indexOf idx [1, 0]) :=
  ⟨by decide,
    (label_lookup_total ⟨512, 512, 8, 3, true, (50, 50, 200), (200, 50, 50),
      (255, 255, 255)⟩ (fun _ => (0, 0, 8, 8))
      [((100 : ℤ), (100 : ℤ)), (200, 100)] [1, 0] 5 15 (by decide)).1⟩

/-- C2 (amended: the frame-count formula holds for every `holdFrames ≥ 0`,
but frame 0 equals the initial frame and the last frame equals the final
frame only when `holdFrames ≥ 1` — with `holdFrames = 0` the first emitted
frame already carries a line segment, see the counterexample): the
animation sequence has exactly `2·holdFrames + (N−1)·framesPerConnection`
frames; in particular `holdFrames = 5`, `framesPerConnection = 15`, `N = 5`
gives 70 frames (see the witness). -/
theorem animation_sequence_structure (cfg : Config) (font : Font)
    (points : List Pt) (order : List ℕ) (hold fpc : ℕ)
    (hperm : List.Perm order (List.range points.length)) (hfpc : 1 ≤ fpc) :
    ∃ frames initF finF,
      renderInitialState cfg font points order = .ok initF ∧
      renderFinalState cfg font points order = .ok finF ∧
      createConnectionAnimationFrames cfg font points order hold fpc =
        .ok frames ∧
      frames.length = 2 * hold + (points.length - 1) * fpc ∧
      (1 ≤ hold → frames.head? = some initF ∧ frames.getLast? = some finF) := by
  have hmem : ∀ idx < points.length, idx ∈ order := fun idx h =>
    hperm.mem_iff.2 (List.mem_range.2 h)
  obtain ⟨initF, finF, mid, hinit, hfin, hcr, hmidlen⟩ :=
    createFrames_structure cfg font points order hold fpc hmem
  have hord : order.length = points.length := by simpa using hperm.length_eq
  refine ⟨_, initF, finF, hinit, hfin, hcr, ?_, ?_⟩
  · simp only [List.length_append, List.length_replicate, hmidlen, hord]
    omega
  · intro hhold
    obtain ⟨h, rfl⟩ : ∃ h, hold = h + 1 := ⟨hold - 1, by omega⟩
    constructor
    · simp [List.replicate_succ]
    · rw [List.getLast?_append_of_ne_nil _ (by simp)]
      exact getLast?_replicate_succ h finF

/-- Closed witness for C2, including the spec's 70-frame scenario:
`holdFrames = 5`, `framesPerConnection = 15`, `N = 5`. -/
theorem animation_sequence_structure_witness :
    ∃ frames initF finF,
      renderInitialState ⟨512, 512, 8, 3, true, (50, 50, 200), (200, 50, 50),
          (255, 255, 255)⟩ (fun _ => (0, 0, 8, 8))
          [((100 : ℤ), (100 : ℤ)), (200, 100), (300, 100), (400, 100), (100, 400)]
          (List.range 5) = .ok initF ∧
      renderFinalState ⟨512, 512, 8, 3, true, (50, 50, 200), (200, 50, 50),
          (255, 255, 255)⟩ (fun _ => (0, 0, 8, 8))
          [((100 : ℤ), (100 : ℤ)), (200, 100), (300, 100), (400, 100), (100, 400)]
          (List.range 5) = .ok finF ∧
      createConnectionAnimationFrames ⟨512, 512, 8, 3, true, (50, 50, 200),
          (200, 50, 50), (255, 255, 255)⟩ (fun _ => (0, 0, 8, 8))
          [((100 : ℤ), (100 : ℤ)), (200, 100), (300, 100), (400, 100), (100, 400)]
          (List.range 5) 5 15 = .ok frames ∧
      frames.length = 70 ∧
      frames.head? = some initF ∧ frames.getLast? = some finF := by
  obtain ⟨frames, initF, finF, h1, h2, h3, h4, h5⟩ :=
    animation_sequence_structure ⟨512, 512, 8, 3, true, (50, 50, 200),
      (200, 50, 50), (255, 255, 255)⟩ (fun _ => (0, 0, 8, 8))
      [((100 : ℤ), (100 : ℤ)), (200, 100), (300, 100), (400, 100), (100, 400)]
      (List.range 5) 5 15 (List.Perm.refl _) (by omega)
  refine ⟨frames, initF, finF, h1, h2, h3, ?_, (h5 (by omega)).1, (h5 (by omega)).2⟩
  rw [h4]
  decide

/-- C2 counterexample: with `holdFrames = 0` (allowed by the claim's
`holdFrames ≥ 0`), frame 0 of the sequence is **not** the initial frame:
it already issues a line-segment draw call (in line colour, between the
two distinct dot centres, over the background), while the initial frame
draws no line at all — so the two frames are not pixel-identical.  The
frame-count formula still holds at this input (last conjunct). -/
theorem animation_hold_zero_first_frame_differs :
    ((createConnectionAnimationFrames
        ⟨512, 512, 8, 3, false, (50, 50, 200), (200, 50, 50), (255, 255, 255)⟩
        (fun _ => (0, 0, 8, 8)) [((100 : ℤ), (100 : ℤ)), (200, 100)]
        [0, 1] 0 2).toOption.getD []).getD 0 ⟨0, 0, (0, 0, 0), []⟩ ≠
      (renderInitialState
        ⟨512, 512, 8, 3, false, (50, 50, 200), (200, 50, 50), (255, 255, 255)⟩
        (fun _ => (0, 0, 8, 8)) [((100 : ℤ), (100 : ℤ)), (200, 100)]
        [0, 1]).toOption.getD ⟨0, 0, (0, 0, 0), []⟩ ∧
    frameHasLine (((createConnectionAnimationFrames
        ⟨512, 512, 8, 3, false, (50, 50, 200), (200, 50, 50), (255, 255, 255)⟩
        (fun _ => (0, 0, 8, 8)) [((100 : ℤ), (100 : ℤ)), (200, 100)]
        [0, 1] 0 2).toOption.getD []).getD 0 ⟨0, 0, (0, 0, 0), []⟩) = true ∧
    frameHasLine ((renderInitialState
        ⟨512, 512, 8, 3, false, (50, 50, 200), (200, 50, 50), (255, 255, 255)⟩
        (fun _ => (0, 0, 8, 8)) [((100 : ℤ), (100 : ℤ)), (200, 100)]
        [0, 1]).toOption.getD ⟨0, 0, (0, 0, 0), []⟩) = false ∧
    ((createConnectionAnimationFrames
        ⟨512, 512, 8, 3, false, (50, 50, 200), (200, 50, 50), (255, 255, 255)⟩
        (fun _ => (0, 0, 8, 8)) [((100 : ℤ), (100 : ℤ)), (200, 100)]
        [0, 1] 0 2).toOption.getD []).length = 2 * 0 + (2 - 1) * 2 := by
  have hr2 : List.range 2 = [0, 1] := rfl
  have hr1 : List.range 1 = [0] := rfl
  refine ⟨?_, ?_, ?_, ?_⟩ <;>
    norm_num [hr2, hr1, List.filter, createConnectionAnimationFrames,
      renderInitialState, renderFinalState, animationFrame,
      animateSingleConnection, mapE, drawDotOps, pyIndex, bind, Except.bind,
      pure, Except.pure, Except.toOption, List.enum, List.enumFrom,
      List.getD, haloOffsets, frameHasLine]

/-- C1 (code bug): `_create_connection_animation_frames` passes
`connection_idx + 1` — not `connection_idx` — as
`num_connections_completed` (its own comment calls the argument "Number of
connections completed so far"), so every frame of the `k`-th connection's
animation draws the `k`-th connection as a **complete** segment.  Here, at
the source defaults (`hold_frames = 5`, `transition_frames = 15`), the
very first animation frame of connection 0 (sequence index 5, progress 0,
where the spec says nothing of the connection is drawn yet) already
contains the full segment from `(100, 100)` to `(200, 100)`; the direct
`_animate_single_connection` call for `k = 0` shows the same. -/
theorem animation_frame_zero_shows_full_connection :
    (((animateSingleConnection
        ⟨512, 512, 8, 3, false, (50, 50, 200), (200, 50, 50), (255, 255, 255)⟩
        (fun _ => (0, 0, 8, 8))
        [((100 : ℤ), (100 : ℤ)), (200, 100), (150, 200)] [0, 1, 2]
        1 0 1 15).toOption.getD []).getD 0 ⟨0, 0, (0, 0, 0), []⟩).ops =
      [DrawOp.lineSeg 100 100 200 100 (200, 50, 50) 3,
       DrawOp.ellipse 92 92 108 108 (50, 50, 200) (0, 0, 0) 2,
       DrawOp.ellipse 192 92 208 108 (50, 50, 200) (0, 0, 0) 2,
       DrawOp.ellipse 142 192 158 208 (50, 50, 200) (0, 0, 0) 2] ∧
    (((createConnectionAnimationFrames
        ⟨512, 512, 8, 3, false, (50, 50, 200), (200, 50, 50), (255, 255, 255)⟩
        (fun _ => (0, 0, 8, 8))
        [((100 : ℤ), (100 : ℤ)), (200, 100), (150, 200)] [0, 1, 2]
        5 15).toOption.getD []).getD 5 ⟨0, 0, (0, 0, 0), []⟩).ops =
      [DrawOp.lineSeg 100 100 200 100 (200, 50, 50) 3,
       DrawOp.ellipse 92 92 108 108 (50, 50, 200) (0, 0, 0) 2,
       DrawOp.ellipse 192 92 208 108 (50, 50, 200) (0, 0, 0) 2,
       DrawOp.ellipse 142 192 158 208 (50, 50, 200) (0, 0, 0) 2] := by
  have hr15 : List.range 15 =
    [0, 1, 2, 3, 4, 5, 6, 7, 8, 9, 10, 11, 12, 13, 14] := rfl
  have hr1 : List.range 1 = [0] := rfl
  have hr2 : List.range 2 = [0, 1] := rfl
  have hr3 : List.range 3 = [0, 1, 2] := rfl
  constructor <;>
    norm_num [hr15, hr1, hr2, hr3, List.filter,
      createConnectionAnimationFrames, renderInitialState, renderFinalState,
      animationFrame, animateSingleConnection, mapE, drawDotOps, pyIndex,
      bind, Except.bind, pure, Except.pure, Except.toOption, List.enum,
      List.enumFrom, List.getD, haloOffsets, List.replicate]

end DotToDot
